import Mathlib

/-!
Verification of the `partialdownload` chunk-planning command.

The definitions below are a shallow embedding of the Go function
`partialdownload` (package `partialdownload`): the single forward
partitioning pass over the ordered torrent file list, the strict /
non-strict close conditions, the download / no-download index
classification, and the surrounding validation and side-effect
structure of the command.  Machine `int64` values are modelled as `Int`
(overflow is irrelevant to the stated properties), fallible paths as
`Except` / explicit outcome values, and the two `SetFilePriority`
side-effect calls as a recorded list of (file-index list, priority)
pairs.
-/

/-- One file entry of a torrent's content list: client-side index,
relative path and byte size (Go struct fields `Index`, `Path`, `Size`). -/
structure TorrentFile where
  Index : Int
  Path : String
  Size : Int
deriving DecidableEq, Repr

/-- A produced chunk, mirroring the Go `Chunk` struct:
`Index`, `FilesCnt`, `Size`. -/
structure Chunk where
  Index : Int
  FilesCnt : Int
  Size : Int
deriving DecidableEq, Repr

/-- The strict-mode failure datum: the offending file's path and size,
as printed by the Go code before `os.Exit(1)`. -/
structure StrictErr where
  path : String
  size : Int
deriving DecidableEq, Repr

/-- The close decision of line 116 of the Go source:
`currentChunkSize >= chunkSize || (strict && (currentChunkSize+file.Size) > chunkSize)`. -/
def closeCond (strict : Bool) (chunkSize currentChunkSize fileSize : Int) : Bool :=
  decide (chunkSize ≤ currentChunkSize) ||
    (strict && decide (chunkSize < currentChunkSize + fileSize))

/-- The mutable loop state of the partitioning pass (Go locals of lines
102-108). -/
structure ScanState where
  chunks : List Chunk
  currentChunkIndex : Int
  currentChunkSize : Int
  currentChunkFilesCnt : Int
  downloadFileIndexes : List Int
  noDownloadFileIndexes : List Int
  allSize : Int
deriving DecidableEq, Repr

/-- Initial loop state (lines 102-108). -/
def initState : ScanState :=
  ⟨[], 0, 0, 0, [], [], 0⟩

/-- One iteration of the Go loop body (lines 109-129): accumulate
`allSize`, fail in strict mode on an oversized file, possibly close the
open chunk, add the file to the open chunk, and classify its client
index as download / no-download against `chunkIndex`. -/
def scanStep (strict : Bool) (chunkSize chunkIndex : Int) (st : ScanState)
    (file : TorrentFile) : Except StrictErr ScanState :=
  let st1 := { st with allSize := st.allSize + file.Size }
  if strict = true ∧ chunkSize < file.Size then
    .error ⟨file.Path, file.Size⟩
  else
    let st2 :=
      if closeCond strict chunkSize st1.currentChunkSize file.Size then
        { st1 with
          chunks := st1.chunks ++
            [⟨st1.currentChunkIndex, st1.currentChunkFilesCnt, st1.currentChunkSize⟩],
          currentChunkIndex := st1.currentChunkIndex + 1,
          currentChunkSize := 0,
          currentChunkFilesCnt := 0 }
      else st1
    let st3 := { st2 with
      currentChunkSize := st2.currentChunkSize + file.Size,
      currentChunkFilesCnt := st2.currentChunkFilesCnt + 1 }
    if st3.currentChunkIndex = chunkIndex then
      .ok { st3 with downloadFileIndexes := st3.downloadFileIndexes ++ [file.Index] }
    else
      .ok { st3 with noDownloadFileIndexes := st3.noDownloadFileIndexes ++ [file.Index] }

/-- The whole loop of lines 109-129: iterate `scanStep` over the ordered
file list; the strict-mode failure aborts the pass. -/
def scanFiles (strict : Bool) (chunkSize chunkIndex : Int) :
    List TorrentFile → ScanState → Except StrictErr ScanState
  | [], st => .ok st
  | file :: rest, st =>
    match scanStep strict chunkSize chunkIndex st file with
    | .error e => .error e
    | .ok st2 => scanFiles strict chunkSize chunkIndex rest st2

/-- Line 130 of the Go source: after the pass the still-open chunk is
appended as the last chunk. -/
def finishScan (st : ScanState) : ScanState :=
  { st with chunks := st.chunks ++
      [⟨st.currentChunkIndex, st.currentChunkFilesCnt, st.currentChunkSize⟩] }

/-- The complete partitioning pass: scan from the initial state, then
append the final open chunk. -/
def planChunks (strict : Bool) (chunkSize chunkIndex : Int)
    (files : List TorrentFile) : Except StrictErr ScanState :=
  (scanFiles strict chunkSize chunkIndex files initState).map finishScan

/-- Ordered insertion by ascending path, used to model the path sort. -/
def insertByPath (f : TorrentFile) : List TorrentFile → List TorrentFile
  | [] => [f]
  | g :: t => if f.Path < g.Path then f :: g :: t else g :: insertByPath f t

/-- Model of lines 95-99: ascending lexicographic sort of the file list
on `Path` (paths are unique, so the sort is deterministic). -/
def sortByPath : List TorrentFile → List TorrentFile
  | [] => []
  | f :: t => insertByPath f (sortByPath t)

/-- The ordered file list the scan runs over: the fetched list itself in
original-order mode, otherwise the path-sorted list. -/
def orderedFiles (originalOrder : Bool) (files : List TorrentFile) : List TorrentFile :=
  if originalOrder then files else sortByPath files

/-- The failure conditions the command surfaces (each is a `log.Fatalf`
or `os.Exit(1)` site in the Go source). -/
inductive PDError where
  | invalidChunkSize (size : Int)
  | invalidChunkIndex (index : Int)
  | fileTooLarge (path : String) (size : Int)
  | chunkIndexOutOfRange (index : Int) (chunkCnt : Int)
deriving DecidableEq, Repr

/-- Observable outcome of one invocation of the command: process exit
code, the `SetFilePriority` calls issued (file-index list, priority
value) in order, the chunk table printed in show-all mode, the fatal
error if any, and the selected chunk reported by the final summary. -/
structure PDOutcome where
  exitCode : Int
  calls : List (List Int × Int)
  shownChunks : Option (List Chunk)
  err : Option PDError
  selectedChunk : Option Chunk
deriving DecidableEq, Repr

/-- The `partialdownload` command body (lines 74-161) with the external
client abstracted away: validation of `chunkSize` (line 78) and of a
negative `chunkIndex` (line 81), ordering of the fetched file list
(lines 95-99), the partitioning pass (lines 102-130), the show-all
report branch (lines 131-140), the post-partition `chunkIndex` bound
check (lines 141-144), and the two priority-mutation calls with the
final summary (lines 145-160). -/
def partialdownload (chunkSize chunkIndex : Int) (showAll strict originalOrder : Bool)
    (torrentFiles0 : List TorrentFile) : PDOutcome :=
  if chunkSize ≤ 0 then
    ⟨1, [], none, some (.invalidChunkSize chunkSize), none⟩
  else if chunkIndex < 0 then
    ⟨1, [], none, some (.invalidChunkIndex chunkIndex), none⟩
  else
    let torrentFiles := orderedFiles originalOrder torrentFiles0
    match scanFiles strict chunkSize chunkIndex torrentFiles initState with
    | .error e => ⟨1, [], none, some (.fileTooLarge e.path e.size), none⟩
    | .ok st0 =>
      let st := finishScan st0
      if showAll then
        ⟨0, [], some st.chunks, none, none⟩
      else if (st.chunks.length : Int) ≤ chunkIndex then
        ⟨1, [], none, some (.chunkIndexOutOfRange chunkIndex (st.chunks.length : Int)), none⟩
      else
        ⟨0, [(st.downloadFileIndexes, 1), (st.noDownloadFileIndexes, 0)],
          none, none, st.chunks[chunkIndex.toNat]?⟩

/-- Sum of the sizes of a list of files. -/
def sizeSum (l : List TorrentFile) : Int :=
  (l.map TorrentFile.Size).sum

/-- Instrumented loop state: the fields of `ScanState` plus ghost
fields recording which files went into each closed chunk
(`closedRuns`), which files are in the still-open chunk (`currentRun`),
and, for every processed file, the open chunk's index at the moment the
file was added (`assigned`).  The ghost fields observe the scan; the
real fields evolve exactly as in `scanStep`. -/
structure ScanStateG where
  chunks : List Chunk
  currentChunkIndex : Int
  currentChunkSize : Int
  currentChunkFilesCnt : Int
  downloadFileIndexes : List Int
  noDownloadFileIndexes : List Int
  allSize : Int
  closedRuns : List (List TorrentFile)
  currentRun : List TorrentFile
  assigned : List (TorrentFile × Int)
deriving DecidableEq, Repr

/-- Forget the ghost fields. -/
def ScanStateG.erase (g : ScanStateG) : ScanState :=
  ⟨g.chunks, g.currentChunkIndex, g.currentChunkSize, g.currentChunkFilesCnt,
    g.downloadFileIndexes, g.noDownloadFileIndexes, g.allSize⟩

/-- Initial instrumented state. -/
def initStateG : ScanStateG :=
  ⟨[], 0, 0, 0, [], [], 0, [], [], []⟩

/-- Instrumented loop body: identical to `scanStep` on the real fields;
on a close the open run moves to `closedRuns`, the added file joins
`currentRun`, and its assignment records the open chunk's index. -/
def scanStepG (strict : Bool) (chunkSize chunkIndex : Int) (st : ScanStateG)
    (file : TorrentFile) : Except StrictErr ScanStateG :=
  let st1 := { st with allSize := st.allSize + file.Size }
  if strict = true ∧ chunkSize < file.Size then
    .error ⟨file.Path, file.Size⟩
  else
    let st2 :=
      if closeCond strict chunkSize st1.currentChunkSize file.Size then
        { st1 with
          chunks := st1.chunks ++
            [⟨st1.currentChunkIndex, st1.currentChunkFilesCnt, st1.currentChunkSize⟩],
          currentChunkIndex := st1.currentChunkIndex + 1,
          currentChunkSize := 0,
          currentChunkFilesCnt := 0,
          closedRuns := st1.closedRuns ++ [st1.currentRun],
          currentRun := [] }
      else st1
    let st3 := { st2 with
      currentChunkSize := st2.currentChunkSize + file.Size,
      currentChunkFilesCnt := st2.currentChunkFilesCnt + 1,
      currentRun := st2.currentRun ++ [file],
      assigned := st2.assigned ++ [(file, st2.currentChunkIndex)] }
    if st3.currentChunkIndex = chunkIndex then
      .ok { st3 with downloadFileIndexes := st3.downloadFileIndexes ++ [file.Index] }
    else
      .ok { st3 with noDownloadFileIndexes := st3.noDownloadFileIndexes ++ [file.Index] }

/-- Instrumented scan over the file list. -/
def scanFilesG (strict : Bool) (chunkSize chunkIndex : Int) :
    List TorrentFile → ScanStateG → Except StrictErr ScanStateG
  | [], st => .ok st
  | file :: rest, st =>
    match scanStepG strict chunkSize chunkIndex st file with
    | .error e => .error e
    | .ok st2 => scanFilesG strict chunkSize chunkIndex rest st2

/-- All runs of an instrumented state: the closed runs followed by the
still-open run. -/
def ScanStateG.runs (g : ScanStateG) : List (List TorrentFile) :=
  g.closedRuns ++ [g.currentRun]

/-- Structural invariant tying the real loop state to the ghost run
fields: the open-chunk accumulators describe the open run, the next
chunk index counts the closed runs, the recorded chunks describe the
closed runs one-for-one, and no closed run is empty. -/
def GInv (g : ScanStateG) : Prop :=
  g.currentChunkSize = sizeSum g.currentRun ∧
  g.currentChunkFilesCnt = (g.currentRun.length : Int) ∧
  g.currentChunkIndex = (g.closedRuns.length : Int) ∧
  g.chunks.map Chunk.FilesCnt = g.closedRuns.map (fun r => (r.length : Int)) ∧
  g.chunks.map Chunk.Size = g.closedRuns.map sizeSum ∧
  (∀ r ∈ g.closedRuns, r ≠ [])

/-- Classification invariant: the download / no-download lists are the
projections of the ghost assignment filtered by the selected chunk
index. -/
def DInv (chunkIndex : Int) (g : ScanStateG) : Prop :=
  g.downloadFileIndexes =
    (g.assigned.filter (fun p => p.2 == chunkIndex)).map (fun p => p.1.Index) ∧
  g.noDownloadFileIndexes =
    (g.assigned.filter (fun p => !(p.2 == chunkIndex))).map (fun p => p.1.Index)

/-- Number of chunk closes the pass performs on `l`, starting from a
given accumulated open-chunk size. -/
def closesCnt (strict : Bool) (s : Int) : Int → List TorrentFile → Nat
  | _, [] => 0
  | cs, file :: rest =>
    if closeCond strict s cs file.Size then closesCnt strict s file.Size rest + 1
    else closesCnt strict s (cs + file.Size) rest

/-- Oversized-file invariant of the non-strict scan: every file of the
open run has non-negative size, any oversized file of the open run is
its last element, and the same holds inside every closed run. -/
def OInv (s : Int) (g : ScanStateG) : Prop :=
  (∀ f ∈ g.currentRun, 0 ≤ f.Size) ∧
  (∀ f ∈ g.currentRun, s < f.Size → g.currentRun.getLast? = some f) ∧
  (∀ r ∈ g.closedRuns, ∀ f ∈ r, s < f.Size → r.getLast? = some f)

/-! ### Helper lemmas -/

theorem sizeSum_nil : sizeSum [] = 0 := rfl

theorem sizeSum_append (l1 l2 : List TorrentFile) :
    sizeSum (l1 ++ l2) = sizeSum l1 + sizeSum l2 := by
  simp [sizeSum]

theorem sizeSum_concat (l : List TorrentFile) (f : TorrentFile) :
    sizeSum (l ++ [f]) = sizeSum l + f.Size := by
  simp [sizeSum]

theorem sizeSum_flatten (rs : List (List TorrentFile)) :
    sizeSum rs.flatten = (rs.map sizeSum).sum := by
  induction rs with
  | nil => rfl
  | cons r t ih => simp [sizeSum_append, ih]

theorem le_sizeSum_of_mem {l : List TorrentFile} {f : TorrentFile}
    (hall : ∀ g ∈ l, 0 ≤ g.Size) (hf : f ∈ l) : f.Size ≤ sizeSum l := by
  refine List.single_le_sum ?_ _ (List.mem_map_of_mem TorrentFile.Size hf)
  intro x hx
  obtain ⟨g, hg, rfl⟩ := List.mem_map.mp hx
  exact hall g hg

theorem exceptMap_ok {α β ε : Type} {f : α → β} {x : Except ε α} {b : β}
    (h : x.map f = .ok b) : ∃ a, x = .ok a ∧ f a = b := by
  cases x with
  | error e => simp [Except.map] at h
  | ok a => exact ⟨a, rfl, by simpa [Except.map] using h⟩

theorem closeCond_true_iff (strict : Bool) (s cs z : Int) :
    closeCond strict s cs z = true ↔ (s ≤ cs ∨ (strict = true ∧ s < cs + z)) := by
  cases strict <;> simp [closeCond]

theorem closeCond_false (s cs z : Int) :
    closeCond false s cs z = decide (s ≤ cs) := by
  simp [closeCond]

/-- The close decision is monotone in the accumulated size. -/
theorem closeCond_mono_cs {strict : Bool} {s cs cs2 z : Int} (hle : cs ≤ cs2)
    (h : closeCond strict s cs z = true) : closeCond strict s cs2 z = true := by
  rw [closeCond_true_iff] at h ⊢
  rcases h with h | ⟨hst, h⟩
  · exact .inl (le_trans h hle)
  · exact .inr ⟨hst, lt_of_lt_of_le h (by omega)⟩

/-- The close decision is antitone in the chunk size. -/
theorem closeCond_anti_s {strict : Bool} {s1 s2 cs cs2 z : Int} (hs : s1 ≤ s2)
    (hle : cs ≤ cs2) (h : closeCond strict s2 cs z = true) :
    closeCond strict s1 cs2 z = true := by
  rw [closeCond_true_iff] at h ⊢
  rcases h with h | ⟨hst, h⟩
  · exact .inl (by omega)
  · exact .inr ⟨hst, by omega⟩

theorem scanStepG_erase (strict : Bool) (chunkSize chunkIndex : Int)
    (g : ScanStateG) (file : TorrentFile) :
    (scanStepG strict chunkSize chunkIndex g file).map ScanStateG.erase =
      scanStep strict chunkSize chunkIndex g.erase file := by
  unfold scanStepG scanStep
  by_cases hov : strict = true ∧ chunkSize < file.Size
  · simp [hov, Except.map, ScanStateG.erase]
  · by_cases hcl : closeCond strict chunkSize g.currentChunkSize file.Size
    · by_cases hidx : g.currentChunkIndex + 1 = chunkIndex <;>
        simp [hov, hcl, hidx, Except.map, ScanStateG.erase]
    · by_cases hidx : g.currentChunkIndex = chunkIndex <;>
        simp [hov, hcl, hidx, Except.map, ScanStateG.erase]

theorem scanFilesG_erase (strict : Bool) (chunkSize chunkIndex : Int)
    (files : List TorrentFile) (g : ScanStateG) :
    (scanFilesG strict chunkSize chunkIndex files g).map ScanStateG.erase =
      scanFiles strict chunkSize chunkIndex files g.erase := by
  induction files generalizing g with
  | nil => simp [scanFilesG, scanFiles, Except.map]
  | cons file rest ih =>
    unfold scanFilesG scanFiles
    have h := scanStepG_erase strict chunkSize chunkIndex g file
    cases hg : scanStepG strict chunkSize chunkIndex g file with
    | error e =>
      rw [hg] at h
      simp [Except.map] at h
      simp [← h, Except.map]
    | ok g2 =>
      rw [hg] at h
      simp [Except.map] at h
      rw [← h]
      exact ih g2


theorem scanStepG_inv {strict : Bool} {s ci : Int} {g g2 : ScanStateG}
    {file : TorrentFile} (hs : 0 < s) (hg : GInv g)
    (h : scanStepG strict s ci g file = .ok g2) : GInv g2 := by
  obtain ⟨h1, h2, h3, h4, h5, h6⟩ := hg
  unfold scanStepG at h
  by_cases hov : strict = true ∧ s < file.Size
  · simp [hov] at h
  · rw [if_neg hov] at h
    by_cases hcl : closeCond strict s g.currentChunkSize file.Size
    · have hne : g.currentRun ≠ [] := by
        intro hnil
        rw [hnil, sizeSum_nil] at h1
        rw [closeCond_true_iff] at hcl
        rcases hcl with hcl | ⟨hst, hcl⟩
        · omega
        · exact hov ⟨hst, by omega⟩
      simp only [hcl, if_true] at h
      split at h <;> injection h with h <;> subst h <;>
        refine ⟨by simp [sizeSum], by simp, by simp [h3],
          by simp [h4, h2], by simp [h5, h1], ?_⟩ <;>
        · intro r hr
          rcases List.mem_append.mp hr with hr | hr
          · exact h6 r hr
          · simp at hr; subst hr; exact hne
    · simp only [hcl, if_false, Bool.false_eq_true] at h
      split at h <;> injection h with h <;> subst h <;>
        exact ⟨by simp [sizeSum_concat, h1], by simp [h2],
          by simp [h3], by simp [h4], by simp [h5], h6⟩

theorem scanStepG_trace {strict : Bool} {s ci : Int} {g g2 : ScanStateG}
    {file : TorrentFile} (h : scanStepG strict s ci g file = .ok g2) :
    g2.closedRuns.flatten ++ g2.currentRun =
        g.closedRuns.flatten ++ g.currentRun ++ [file] ∧
    g2.assigned = g.assigned ++ [(file, g2.currentChunkIndex)] ∧
    g2.currentRun ≠ [] := by
  unfold scanStepG at h
  by_cases hov : strict = true ∧ s < file.Size
  · simp [hov] at h
  · rw [if_neg hov] at h
    by_cases hcl : closeCond strict s g.currentChunkSize file.Size
    · simp only [hcl, if_true] at h
      split at h <;> injection h with h <;> subst h <;> simp
    · simp only [hcl, if_false, Bool.false_eq_true] at h
      split at h <;> injection h with h <;> subst h <;> simp

theorem scanStepG_dinv {strict : Bool} {s ci : Int} {g g2 : ScanStateG}
    {file : TorrentFile} (hd : DInv ci g)
    (h : scanStepG strict s ci g file = .ok g2) : DInv ci g2 := by
  obtain ⟨hd1, hd2⟩ := hd
  unfold scanStepG at h
  by_cases hov : strict = true ∧ s < file.Size
  · simp [hov] at h
  · rw [if_neg hov] at h
    by_cases hcl : closeCond strict s g.currentChunkSize file.Size
    · simp only [hcl, if_true] at h
      split at h <;> rename_i hidx <;> injection h with h <;> subst h <;>
        refine ⟨?_, ?_⟩ <;> simp [List.filter_append, hd1, hd2, hidx]
    · simp only [hcl, if_false, Bool.false_eq_true] at h
      split at h <;> rename_i hidx <;> injection h with h <;> subst h <;>
        refine ⟨?_, ?_⟩ <;> simp [List.filter_append, hd1, hd2, hidx]

theorem scanFilesG_inv {strict : Bool} {s ci : Int} (hs : 0 < s) :
    ∀ (l : List TorrentFile) (g g2 : ScanStateG), GInv g →
      scanFilesG strict s ci l g = .ok g2 → GInv g2 := by
  intro l
  induction l with
  | nil => intro g g2 hg h; cases h; exact hg
  | cons file rest ih =>
    intro g g2 hg h
    unfold scanFilesG at h
    cases hstep : scanStepG strict s ci g file with
    | error e => rw [hstep] at h; cases h
    | ok g3 =>
      rw [hstep] at h
      exact ih g3 g2 (scanStepG_inv hs hg hstep) h

theorem scanFilesG_dinv {strict : Bool} {s ci : Int} :
    ∀ (l : List TorrentFile) (g g2 : ScanStateG), DInv ci g →
      scanFilesG strict s ci l g = .ok g2 → DInv ci g2 := by
  intro l
  induction l with
  | nil => intro g g2 hg h; cases h; exact hg
  | cons file rest ih =>
    intro g g2 hg h
    unfold scanFilesG at h
    cases hstep : scanStepG strict s ci g file with
    | error e => rw [hstep] at h; cases h
    | ok g3 =>
      rw [hstep] at h
      exact ih g3 g2 (scanStepG_dinv hg hstep) h

theorem scanFilesG_trace {strict : Bool} {s ci : Int} :
    ∀ (l : List TorrentFile) (g g2 : ScanStateG),
      scanFilesG strict s ci l g = .ok g2 →
      g2.closedRuns.flatten ++ g2.currentRun =
          g.closedRuns.flatten ++ g.currentRun ++ l ∧
      g2.assigned.map (fun p => p.1) = g.assigned.map (fun p => p.1) ++ l ∧
      (g2.currentRun ≠ [] ∨ (l = [] ∧ g2 = g)) := by
  intro l
  induction l with
  | nil => intro g g2 h; cases h; exact ⟨by simp, by simp, .inr ⟨rfl, rfl⟩⟩
  | cons file rest ih =>
    intro g g2 h
    unfold scanFilesG at h
    cases hstep : scanStepG strict s ci g file with
    | error e => rw [hstep] at h; cases h
    | ok g3 =>
      rw [hstep] at h
      obtain ⟨ht1, ht2, ht3⟩ := scanStepG_trace hstep
      obtain ⟨hr1, hr2, hr3⟩ := ih g3 g2 h
      refine ⟨by rw [hr1, ht1]; simp, by rw [hr2, ht2]; simp, ?_⟩
      rcases hr3 with hr3 | ⟨-, rfl⟩
      · exact .inl hr3
      · exact .inl ht3

theorem GInv_init : GInv initStateG := by
  refine ⟨rfl, rfl, rfl, rfl, rfl, ?_⟩
  intro r hr
  cases hr

theorem DInv_init (ci : Int) : DInv ci initStateG := ⟨rfl, rfl⟩

/-- A strict-mode step fails exactly on an oversized file and reports
its path and size. -/
theorem scanStep_error_iff {strict : Bool} {s ci : Int} {st : ScanState}
    {file : TorrentFile} {e : StrictErr} :
    scanStep strict s ci st file = .error e ↔
      ((strict = true ∧ s < file.Size) ∧ e = ⟨file.Path, file.Size⟩) := by
  unfold scanStep
  by_cases hov : strict = true ∧ s < file.Size
  · simp [hov, eq_comm]
  · simp only [hov, if_false]
    constructor
    · intro h
      split at h <;> split at h <;> cases h
    · rintro ⟨h, -⟩
      exact h.elim

theorem scanStep_strict_le {s ci : Int} {st st2 : ScanState} {file : TorrentFile}
    (hcs : st.currentChunkSize ≤ s) (hch : ∀ c ∈ st.chunks, c.Size ≤ s)
    (h : scanStep true s ci st file = .ok st2) :
    st2.currentChunkSize ≤ s ∧ ∀ c ∈ st2.chunks, c.Size ≤ s := by
  unfold scanStep at h
  by_cases hov : (true : Bool) = true ∧ s < file.Size
  · simp [hov] at h
  · have hsz : file.Size ≤ s := by
      by_contra hlt
      exact hov ⟨rfl, by omega⟩
    rw [if_neg hov] at h
    by_cases hcl : closeCond true s st.currentChunkSize file.Size
    · simp only [hcl, if_true] at h
      split at h <;> injection h with h <;> subst h <;>
        refine ⟨by simpa using hsz, ?_⟩ <;>
        · intro c hc
          simp at hc
          rcases hc with hc | rfl
          · exact hch c hc
          · exact hcs
    · have hcl3 : st.currentChunkSize + file.Size ≤ s := by
        rcases lt_or_le s (st.currentChunkSize + file.Size) with hlt | hle
        · exact absurd ((closeCond_true_iff true s _ _).mpr (.inr ⟨rfl, hlt⟩)) hcl
        · exact hle
      simp only [hcl, if_false, Bool.false_eq_true] at h
      split at h <;> injection h with h <;> subst h <;>
        exact ⟨by simpa using hcl3, by simpa using hch⟩

theorem scanStep_nonstrict_ge {s ci : Int} {st st2 : ScanState} {file : TorrentFile}
    (hch : ∀ c ∈ st.chunks, s ≤ c.Size)
    (h : scanStep false s ci st file = .ok st2) :
    ∀ c ∈ st2.chunks, s ≤ c.Size := by
  unfold scanStep at h
  rw [if_neg (by simp)] at h
  by_cases hcl : closeCond false s st.currentChunkSize file.Size
  · have hge : s ≤ st.currentChunkSize := by
      rw [closeCond_true_iff] at hcl
      rcases hcl with hcl | ⟨hst, -⟩
      · exact hcl
      · simp at hst
    simp only [hcl, if_true] at h
    split at h <;> injection h with h <;> subst h <;>
      · intro c hc
        simp at hc
        rcases hc with hc | rfl
        · exact hch c hc
        · exact hge
  · simp only [hcl, if_false, Bool.false_eq_true] at h
    split at h <;> injection h with h <;> subst h <;> simpa using hch

theorem scanStep_chunks_cs {strict : Bool} {s ci : Int} {st st2 : ScanState}
    {file : TorrentFile} (h : scanStep strict s ci st file = .ok st2) :
    (closeCond strict s st.currentChunkSize file.Size = true →
      st2.chunks.length = st.chunks.length + 1 ∧ st2.currentChunkSize = file.Size) ∧
    (closeCond strict s st.currentChunkSize file.Size = false →
      st2.chunks = st.chunks ∧
      st2.currentChunkSize = st.currentChunkSize + file.Size) := by
  unfold scanStep at h
  by_cases hov : strict = true ∧ s < file.Size
  · simp [hov] at h
  · rw [if_neg hov] at h
    by_cases hcl : closeCond strict s st.currentChunkSize file.Size
    · simp only [hcl, if_true] at h
      split at h <;> injection h with h <;> subst h <;>
        exact ⟨fun _ => ⟨by simp, by simp⟩, fun hf => by rw [hcl] at hf; cases hf⟩
    · simp only [hcl, if_false, Bool.false_eq_true] at h
      split at h <;> injection h with h <;> subst h <;>
        exact ⟨fun ht => absurd ht hcl, fun _ => ⟨by simp, by simp⟩⟩

theorem scanFiles_error_mem {strict : Bool} {s ci : Int} :
    ∀ (l : List TorrentFile) (st : ScanState) (e : StrictErr),
      scanFiles strict s ci l st = .error e →
      ∃ f ∈ l, (strict = true ∧ s < f.Size) ∧ e = ⟨f.Path, f.Size⟩ := by
  intro l
  induction l with
  | nil => intro st e h; cases h
  | cons file rest ih =>
    intro st e h
    unfold scanFiles at h
    cases hstep : scanStep strict s ci st file with
    | error e2 =>
      rw [hstep] at h
      injection h with h
      subst h
      obtain ⟨hov, he⟩ := scanStep_error_iff.mp hstep
      exact ⟨file, List.mem_cons_self _ _, hov, he⟩
    | ok st3 =>
      rw [hstep] at h
      obtain ⟨f, hf, hfs, he⟩ := ih st3 e h
      exact ⟨f, List.mem_cons_of_mem _ hf, hfs, he⟩

theorem scanFiles_ok_of_no_oversize {strict : Bool} {s ci : Int} :
    ∀ (l : List TorrentFile), (∀ f ∈ l, ¬(strict = true ∧ s < f.Size)) →
      ∀ st : ScanState, ∃ st2, scanFiles strict s ci l st = .ok st2 := by
  intro l
  induction l with
  | nil => intro _ st; exact ⟨st, rfl⟩
  | cons file rest ih =>
    intro hno st
    cases hstep : scanStep strict s ci st file with
    | error e =>
      obtain ⟨hov, -⟩ := scanStep_error_iff.mp hstep
      exact absurd hov (hno file (List.mem_cons_self _ _))
    | ok st3 =>
      obtain ⟨st2, h2⟩ := ih (fun f hf => hno f (List.mem_cons_of_mem _ hf)) st3
      exact ⟨st2, by unfold scanFiles; rw [hstep]; exact h2⟩

theorem scanFiles_strict_le {s ci : Int} :
    ∀ (l : List TorrentFile) (st st2 : ScanState),
      st.currentChunkSize ≤ s → (∀ c ∈ st.chunks, c.Size ≤ s) →
      scanFiles true s ci l st = .ok st2 →
      st2.currentChunkSize ≤ s ∧ ∀ c ∈ st2.chunks, c.Size ≤ s := by
  intro l
  induction l with
  | nil => intro st st2 hcs hch h; cases h; exact ⟨hcs, hch⟩
  | cons file rest ih =>
    intro st st2 hcs hch h
    unfold scanFiles at h
    cases hstep : scanStep true s ci st file with
    | error e => rw [hstep] at h; cases h
    | ok st3 =>
      rw [hstep] at h
      obtain ⟨h3cs, h3ch⟩ := scanStep_strict_le hcs hch hstep
      exact ih st3 st2 h3cs h3ch h

theorem scanFiles_nonstrict_ge {s ci : Int} :
    ∀ (l : List TorrentFile) (st st2 : ScanState),
      (∀ c ∈ st.chunks, s ≤ c.Size) →
      scanFiles false s ci l st = .ok st2 →
      ∀ c ∈ st2.chunks, s ≤ c.Size := by
  intro l
  induction l with
  | nil => intro st st2 hch h; cases h; exact hch
  | cons file rest ih =>
    intro st st2 hch h
    unfold scanFiles at h
    cases hstep : scanStep false s ci st file with
    | error e => rw [hstep] at h; cases h
    | ok st3 =>
      rw [hstep] at h
      exact ih st3 st2 (scanStep_nonstrict_ge hch hstep) h

theorem scanFiles_chunks_length {strict : Bool} {s ci : Int} :
    ∀ (l : List TorrentFile) (st st2 : ScanState),
      scanFiles strict s ci l st = .ok st2 →
      st2.chunks.length = st.chunks.length + closesCnt strict s st.currentChunkSize l := by
  intro l
  induction l with
  | nil => intro st st2 h; cases h; simp [closesCnt]
  | cons file rest ih =>
    intro st st2 h
    unfold scanFiles at h
    cases hstep : scanStep strict s ci st file with
    | error e => rw [hstep] at h; cases h
    | ok st3 =>
      rw [hstep] at h
      obtain ⟨hc1, hc2⟩ := scanStep_chunks_cs hstep
      by_cases hcl : closeCond strict s st.currentChunkSize file.Size
      · obtain ⟨hl, hcs⟩ := hc1 hcl
        have hrec := ih st3 st2 h
        rw [hrec, hl, hcs]
        simp only [closesCnt, hcl, if_true]
        omega
      · obtain ⟨hl, hcs⟩ := hc2 (by simpa using hcl)
        have hrec := ih st3 st2 h
        rw [hrec, hl, hcs]
        simp only [closesCnt, hcl, if_false, Bool.false_eq_true]

/-- Changing only the initial accumulated size moves the close count by
at most one, monotonically. -/
theorem closesCnt_cs_mono {strict : Bool} {s : Int} :
    ∀ (l : List TorrentFile), (∀ f ∈ l, 0 ≤ f.Size) →
      ∀ cs cs2 : Int, 0 ≤ cs → cs ≤ cs2 →
        closesCnt strict s cs l ≤ closesCnt strict s cs2 l ∧
        closesCnt strict s cs2 l ≤ closesCnt strict s cs l + 1 := by
  intro l
  induction l with
  | nil => intro _ cs cs2 _ _; simp [closesCnt]
  | cons file rest ih =>
    intro hsz cs cs2 h0 hle
    have hf0 : 0 ≤ file.Size := hsz file (List.mem_cons_self _ _)
    have hrest : ∀ f ∈ rest, 0 ≤ f.Size :=
      fun f hf => hsz f (List.mem_cons_of_mem _ hf)
    by_cases hcl : closeCond strict s cs file.Size
    · have hcl2 : closeCond strict s cs2 file.Size = true := closeCond_mono_cs hle hcl
      simp only [closesCnt, hcl, hcl2, if_true]
      omega
    · by_cases hcl2 : closeCond strict s cs2 file.Size
      · simp only [closesCnt, hcl, hcl2, if_true, if_false, Bool.false_eq_true]
        obtain ⟨hm1, hm2⟩ := ih hrest file.Size (cs + file.Size) hf0 (by omega)
        omega
      · simp only [closesCnt, hcl, hcl2, if_false, Bool.false_eq_true]
        exact ih hrest (cs + file.Size) (cs2 + file.Size) (by omega) (by omega)

/-- Shrinking the chunk size (and starting from a no-smaller
accumulated size) never decreases the close count. -/
theorem closesCnt_anti_s {strict : Bool} {s1 s2 : Int} (h12 : s1 ≤ s2) :
    ∀ (l : List TorrentFile), (∀ f ∈ l, 0 ≤ f.Size) →
      ∀ cs1 cs2 : Int, 0 ≤ cs2 → cs2 ≤ cs1 →
        closesCnt strict s2 cs2 l ≤ closesCnt strict s1 cs1 l := by
  intro l
  induction l with
  | nil => intro _ cs1 cs2 _ _; simp [closesCnt]
  | cons file rest ih =>
    intro hsz cs1 cs2 h0 hle
    have hf0 : 0 ≤ file.Size := hsz file (List.mem_cons_self _ _)
    have hrest : ∀ f ∈ rest, 0 ≤ f.Size :=
      fun f hf => hsz f (List.mem_cons_of_mem _ hf)
    by_cases hcl2 : closeCond strict s2 cs2 file.Size
    · have hcl1 : closeCond strict s1 cs1 file.Size = true :=
        closeCond_anti_s h12 hle hcl2
      simp only [closesCnt, hcl1, hcl2, if_true]
      have := ih hrest file.Size file.Size hf0 le_rfl
      omega
    · by_cases hcl1 : closeCond strict s1 cs1 file.Size
      · simp only [closesCnt, hcl1, hcl2, if_true, if_false, Bool.false_eq_true]
        have hA := (@closesCnt_cs_mono strict s2 rest hrest file.Size
          (cs2 + file.Size) hf0 (by omega)).2
        have hB := ih hrest file.Size file.Size hf0 le_rfl
        omega
      · simp only [closesCnt, hcl1, hcl2, if_false, Bool.false_eq_true]
        exact ih hrest (cs1 + file.Size) (cs2 + file.Size) (by omega) (by omega)

theorem planChunks_ok_iff {strict : Bool} {s ci : Int} {files : List TorrentFile}
    {st : ScanState} :
    planChunks strict s ci files = .ok st ↔
      ∃ st0, scanFiles strict s ci files initState = .ok st0 ∧ st = finishScan st0 := by
  unfold planChunks
  cases h : scanFiles strict s ci files initState <;> simp [Except.map, eq_comm]

theorem scanFilesG_ok_of_scanFiles {strict : Bool} {s ci : Int}
    {files : List TorrentFile} {st0 : ScanState}
    (h : scanFiles strict s ci files initState = .ok st0) :
    ∃ g, scanFilesG strict s ci files initStateG = .ok g ∧ g.erase = st0 := by
  have he := scanFilesG_erase strict s ci files initStateG
  have hi : initStateG.erase = initState := rfl
  rw [hi, h] at he
  cases hg : scanFilesG strict s ci files initStateG with
  | error e => rw [hg] at he; simp [Except.map] at he
  | ok g =>
    rw [hg] at he
    simp [Except.map] at he
    exact ⟨g, rfl, he⟩

/-! ### Claim theorems -/

/-- C1: for every non-empty ordered file list and every chunkSize > 0
(any mode, provided the strict-mode oversized-file failure does not
trigger, i.e. the pass returns `ok`), the produced chunk list
partitions the input exactly: there is a decomposition of the ordered
file list into contiguous non-empty runs (`runs.flatten = files`), one
run per chunk in order, with each chunk's `FilesCnt` the run's length
and each chunk's `Size` the sum of the run's file sizes; consequently
the chunks' file counts sum to the number of files and the chunks'
sizes sum to the total input size. -/
theorem chunks_partition_exact (strict : Bool) (s ci : Int)
    (files : List TorrentFile) (hne : files ≠ []) (hs : 0 < s)
    (st : ScanState) (h : planChunks strict s ci files = .ok st) :
    ∃ runs : List (List TorrentFile),
      runs.flatten = files ∧
      (∀ r ∈ runs, r ≠ []) ∧
      st.chunks.map Chunk.FilesCnt = runs.map (fun r => (r.length : Int)) ∧
      st.chunks.map Chunk.Size = runs.map sizeSum ∧
      (st.chunks.map Chunk.FilesCnt).sum = (files.length : Int) ∧
      (st.chunks.map Chunk.Size).sum = sizeSum files := by
  obtain ⟨st0, h0, rfl⟩ := planChunks_ok_iff.mp h
  obtain ⟨g, hg, hge⟩ := scanFilesG_ok_of_scanFiles h0
  subst hge
  obtain ⟨h1, h2, h3, h4, h5, h6⟩ := scanFilesG_inv hs files initStateG g GInv_init hg
  obtain ⟨ht1, ht2, ht3⟩ := scanFilesG_trace files initStateG g hg
  have hcur : g.currentRun ≠ [] := by
    rcases ht3 with hcr | ⟨hl, -⟩
    · exact hcr
    · exact absurd hl hne
  have hflat : (g.closedRuns ++ [g.currentRun]).flatten = files := by
    have hsplit : (g.closedRuns ++ [g.currentRun]).flatten =
        g.closedRuns.flatten ++ g.currentRun := by simp
    rw [hsplit, ht1]
    simp [initStateG]
  have hmapF : (finishScan g.erase).chunks.map Chunk.FilesCnt =
      (g.closedRuns ++ [g.currentRun]).map (fun r => (r.length : Int)) := by
    simp [finishScan, ScanStateG.erase, h4, h2]
  have hmapS : (finishScan g.erase).chunks.map Chunk.Size =
      (g.closedRuns ++ [g.currentRun]).map sizeSum := by
    simp [finishScan, ScanStateG.erase, h5, h1]
  refine ⟨g.closedRuns ++ [g.currentRun], hflat, ?_, hmapF, hmapS, ?_, ?_⟩
  · intro r hr
    rcases List.mem_append.mp hr with hr | hr
    · exact h6 r hr
    · simp at hr; subst hr; exact hcur
  · rw [hmapF, ← hflat, List.length_flatten, Nat.cast_list_sum, List.map_map]
    rfl
  · rw [hmapS, ← hflat, sizeSum_flatten]

/-- Witness: the partition property evaluated on the concrete two-file
list `[a(3), b(4)]` with chunk size 5 (one chunk of two files). -/
theorem chunks_partition_exact_witness :
    ∃ runs : List (List TorrentFile),
      runs.flatten = [⟨0, "a", 3⟩, ⟨1, "b", 4⟩] ∧
      (∀ r ∈ runs, r ≠ []) ∧
      (ScanState.mk [⟨0, 2, 7⟩] 0 7 2 [0, 1] [] 7).chunks.map Chunk.FilesCnt =
        runs.map (fun r => (r.length : Int)) ∧
      (ScanState.mk [⟨0, 2, 7⟩] 0 7 2 [0, 1] [] 7).chunks.map Chunk.Size =
        runs.map sizeSum ∧
      ((ScanState.mk [⟨0, 2, 7⟩] 0 7 2 [0, 1] [] 7).chunks.map Chunk.FilesCnt).sum =
        (([⟨0, "a", 3⟩, ⟨1, "b", 4⟩] : List TorrentFile).length : Int) ∧
      ((ScanState.mk [⟨0, 2, 7⟩] 0 7 2 [0, 1] [] 7).chunks.map Chunk.Size).sum =
        sizeSum [⟨0, "a", 3⟩, ⟨1, "b", 4⟩] :=
  chunks_partition_exact false 5 0 [⟨0, "a", 3⟩, ⟨1, "b", 4⟩]
    (by decide) (by decide) (ScanState.mk [⟨0, 2, 7⟩] 0 7 2 [0, 1] [] 7) (by rfl)

theorem scanFiles_strict_error_of_oversize {s ci : Int} :
    ∀ (l : List TorrentFile) (st : ScanState), (∃ f ∈ l, s < f.Size) →
      ∃ e, scanFiles true s ci l st = .error e := by
  intro l
  induction l with
  | nil => rintro st ⟨f, hf, -⟩; cases hf
  | cons file rest ih =>
    rintro st ⟨f, hf, hfs⟩
    cases hstep : scanStep true s ci st file with
    | error e => exact ⟨e, by unfold scanFiles; rw [hstep]⟩
    | ok st3 =>
      rcases List.mem_cons.mp hf with rfl | hf
      · obtain ⟨e2, he2⟩ :
            ∃ e2, scanStep true s ci st f = .error e2 :=
          ⟨⟨f.Path, f.Size⟩, scanStep_error_iff.mpr ⟨⟨rfl, hfs⟩, rfl⟩⟩
        rw [hstep] at he2
        cases he2
      · obtain ⟨e, he⟩ := ih st3 ⟨f, hf, hfs⟩
        exact ⟨e, by unfold scanFiles; rw [hstep]; exact he⟩

/-- C2: in strict mode, for every file list and chunk size > 0, every
chunk the pass produces (including the final open chunk) has total size
at most the chunk size; the pass fails if and only if some file is
strictly larger than the chunk size; a failure reports the offending
file's path and size; and on failure the command aborts with that
report and performs no priority-mutation call. -/
theorem strict_mode_bound_and_failure (s ci : Int) (hs : 0 < s)
    (files : List TorrentFile) :
    (∀ st, planChunks true s ci files = .ok st → ∀ c ∈ st.chunks, c.Size ≤ s) ∧
    ((∃ e, scanFiles true s ci files initState = .error e) ↔
      ∃ f ∈ files, s < f.Size) ∧
    (∀ e, scanFiles true s ci files initState = .error e →
      ∃ f ∈ files, s < f.Size ∧ e.path = f.Path ∧ e.size = f.Size) ∧
    (∀ (e : StrictErr) (sa oo : Bool), 0 ≤ ci →
      scanFiles true s ci (orderedFiles oo files) initState = .error e →
      partialdownload s ci sa true oo files =
        ⟨1, [], none, some (.fileTooLarge e.path e.size), none⟩) := by
  refine ⟨?_, ⟨?_, ?_⟩, ?_, ?_⟩
  · intro st h
    obtain ⟨st0, h0, rfl⟩ := planChunks_ok_iff.mp h
    obtain ⟨hcs, hch⟩ := scanFiles_strict_le files initState st0
      (by simp [initState]; omega) (by simp [initState]) h0
    intro c hc
    simp [finishScan] at hc
    rcases hc with hc | rfl
    · exact hch c hc
    · exact hcs
  · rintro ⟨e, he⟩
    obtain ⟨f, hf, ⟨-, hfs⟩, -⟩ := scanFiles_error_mem files initState e he
    exact ⟨f, hf, hfs⟩
  · intro hov
    exact scanFiles_strict_error_of_oversize files initState hov
  · intro e he
    obtain ⟨f, hf, ⟨-, hfs⟩, hee⟩ := scanFiles_error_mem files initState e he
    exact ⟨f, hf, hfs, by rw [hee], by rw [hee]⟩
  · intro e sa oo hci he
    unfold partialdownload
    rw [if_neg (by omega), if_neg (by omega)]
    simp only [he]

/-- Witness: the strict-mode bound and failure characterization at
chunk size 5 on the single oversized file `big(9)`. -/
theorem strict_mode_bound_and_failure_witness :
    (∀ st, planChunks true 5 0 [⟨0, "big", 9⟩] = .ok st →
      ∀ c ∈ st.chunks, c.Size ≤ 5) ∧
    ((∃ e, scanFiles true 5 0 [⟨0, "big", 9⟩] initState = .error e) ↔
      ∃ f ∈ ([⟨0, "big", 9⟩] : List TorrentFile), (5 : Int) < f.Size) ∧
    (∀ e, scanFiles true 5 0 [⟨0, "big", 9⟩] initState = .error e →
      ∃ f ∈ ([⟨0, "big", 9⟩] : List TorrentFile),
        (5 : Int) < f.Size ∧ e.path = f.Path ∧ e.size = f.Size) ∧
    (∀ (e : StrictErr) (sa oo : Bool), (0 : Int) ≤ 0 →
      scanFiles true 5 0 (orderedFiles oo [⟨0, "big", 9⟩]) initState = .error e →
      partialdownload 5 0 sa true oo [⟨0, "big", 9⟩] =
        ⟨1, [], none, some (.fileTooLarge e.path e.size), none⟩) :=
  strict_mode_bound_and_failure 5 0 (by decide) [⟨0, "big", 9⟩]

/-- C3: in non-strict mode, for every non-empty file list and chunk
size > 0, every produced chunk except possibly the last has total size
at least the chunk size; the still-open chunk is always appended after
the pass as the final chunk (the chunk list is non-empty), and that
final chunk contains at least one file. -/
theorem nonstrict_chunks_ge_and_last (s ci : Int) (files : List TorrentFile)
    (hne : files ≠ []) (hs : 0 < s) (st : ScanState)
    (h : planChunks false s ci files = .ok st) :
    (∀ c ∈ st.chunks.dropLast, s ≤ c.Size) ∧
    st.chunks ≠ [] ∧
    (∀ c, st.chunks.getLast? = some c → 1 ≤ c.FilesCnt) := by
  obtain ⟨st0, h0, rfl⟩ := planChunks_ok_iff.mp h
  have hclosed := scanFiles_nonstrict_ge files initState st0
    (by simp [initState]) h0
  obtain ⟨g, hg, hge2⟩ := scanFilesG_ok_of_scanFiles h0
  subst hge2
  obtain ⟨h1, h2, h3, h4, h5, h6⟩ := scanFilesG_inv hs files initStateG g GInv_init hg
  obtain ⟨-, -, ht3⟩ := scanFilesG_trace files initStateG g hg
  have hcur : g.currentRun ≠ [] := by
    rcases ht3 with hcr | ⟨hl, -⟩
    · exact hcr
    · exact absurd hl hne
  refine ⟨?_, by simp [finishScan], ?_⟩
  · intro c hc
    have hdrop : (finishScan (ScanStateG.erase g)).chunks.dropLast =
        (ScanStateG.erase g).chunks := by
      simp [finishScan]
    rw [hdrop] at hc
    exact hclosed c hc
  · intro c hlast
    have hl2 : (finishScan (ScanStateG.erase g)).chunks.getLast? =
        some ⟨(ScanStateG.erase g).currentChunkIndex,
          (ScanStateG.erase g).currentChunkFilesCnt,
          (ScanStateG.erase g).currentChunkSize⟩ := by
      simp [finishScan]
    rw [hl2] at hlast
    injection hlast with hlast
    subst hlast
    show 1 ≤ (ScanStateG.erase g).currentChunkFilesCnt
    have : (ScanStateG.erase g).currentChunkFilesCnt = (g.currentRun.length : Int) := h2
    rw [this]
    have : 0 < g.currentRun.length := List.length_pos.mpr hcur
    omega

/-- Witness: the non-strict bound on the list `[a(6), b(2)]` with chunk
size 5, yielding a closed chunk of size 6 and a final chunk of size 2. -/
theorem nonstrict_chunks_ge_and_last_witness :
    (∀ c ∈ (ScanState.mk [⟨0, 1, 6⟩, ⟨1, 1, 2⟩] 1 2 1 [0] [1] 8).chunks.dropLast,
      (5 : Int) ≤ c.Size) ∧
    (ScanState.mk [⟨0, 1, 6⟩, ⟨1, 1, 2⟩] 1 2 1 [0] [1] 8).chunks ≠ [] ∧
    (∀ c, (ScanState.mk [⟨0, 1, 6⟩, ⟨1, 1, 2⟩] 1 2 1 [0] [1] 8).chunks.getLast? =
        some c → 1 ≤ c.FilesCnt) :=
  nonstrict_chunks_ge_and_last 5 0 [⟨0, "a", 6⟩, ⟨1, "b", 2⟩]
    (by decide) (by decide)
    (ScanState.mk [⟨0, 1, 6⟩, ⟨1, 1, 2⟩] 1 2 1 [0] [1] 8) (by rfl)

/-- Counterexample to C4 as stated: non-strict mode, chunk size 500,
files `[a(100), b(600)]`.  The oversized file `b` (600 > 500) joins the
still-open chunk together with `a`, so the single produced chunk has
`FilesCnt` 2 — the oversized file is not alone in its chunk. -/
theorem nonstrict_oversized_alone_counterexample :
    planChunks false 500 0 [⟨0, "a", 100⟩, ⟨1, "b", 600⟩] =
      .ok ⟨[⟨0, 2, 700⟩], 0, 700, 2, [0, 1], [], 700⟩ ∧
    (500 : Int) < 600 ∧
    ∀ c ∈ (ScanState.mk [⟨0, 2, 700⟩] 0 700 2 [0, 1] [] 700).chunks,
      c.FilesCnt ≠ 1 :=
  ⟨by rfl, by decide, by decide⟩

theorem scanStepG_oinv {s ci : Int} {g g2 : ScanStateG} {file : TorrentFile}
    (hg : GInv g) (ho : OInv s g) (hf0 : 0 ≤ file.Size)
    (h : scanStepG false s ci g file = .ok g2) : OInv s g2 := by
  obtain ⟨o1, o2, o3⟩ := ho
  obtain ⟨h1, -, -, -, -, -⟩ := hg
  unfold scanStepG at h
  rw [if_neg (by simp)] at h
  by_cases hcl : closeCond false s g.currentChunkSize file.Size
  · simp only [hcl, if_true] at h
    split at h <;> injection h with h <;> subst h <;>
      refine ⟨by intro f hf; simp at hf; subst hf; exact hf0,
        by intro f hf; simp at hf; subst hf; simp, ?_⟩ <;>
      · intro r hr
        rcases List.mem_append.mp hr with hr | hr
        · exact o3 r hr
        · simp at hr; subst hr; exact o2
  · have hlt : g.currentChunkSize < s := by
      rw [closeCond_false] at hcl
      simp at hcl
      omega
    have hnone : ∀ f ∈ g.currentRun, ¬(s < f.Size) := by
      intro f hf hbig
      have := le_sizeSum_of_mem o1 hf
      rw [← h1] at this
      omega
    simp only [hcl, if_false, Bool.false_eq_true] at h
    split at h <;> injection h with h <;> subst h <;>
      refine ⟨?_, ?_, by simpa using o3⟩ <;>
      · intro f hf
        simp at hf
        rcases hf with hf | rfl
        · first
          | exact o1 f hf
          | exact fun hbig => absurd hbig (hnone f hf)
        · first
          | exact hf0
          | intro _; simp
  
theorem scanFilesG_oinv {s ci : Int} (hs : 0 < s) :
    ∀ (l : List TorrentFile), (∀ f ∈ l, 0 ≤ f.Size) →
      ∀ (g g2 : ScanStateG), GInv g → OInv s g →
        scanFilesG false s ci l g = .ok g2 → OInv s g2 := by
  intro l
  induction l with
  | nil => intro _ g g2 _ ho h; cases h; exact ho
  | cons file rest ih =>
    intro hsz g g2 hg ho h
    unfold scanFilesG at h
    cases hstep : scanStepG false s ci g file with
    | error e => rw [hstep] at h; cases h
    | ok g3 =>
      rw [hstep] at h
      exact ih (fun f hf => hsz f (List.mem_cons_of_mem _ hf)) g3 g2
        (scanStepG_inv hs hg hstep)
        (scanStepG_oinv hg ho (hsz file (List.mem_cons_self _ _)) hstep) h

theorem OInv_init (s : Int) : OInv s initStateG := by
  refine ⟨?_, ?_, ?_⟩ <;> intro f hf <;> cases hf

/-- C4 (amended): in non-strict mode with non-negative file sizes, the
operation never fails, and every file larger than the chunk size is the
LAST file of its chunk (the chunk closes before any further file is
added), so the total size of the chunk containing it legitimately
exceeds the chunk size; but the oversized file need not be alone in its
chunk — files accumulated earlier, while the open chunk was still below
the chunk size, share the chunk with it. -/
theorem nonstrict_oversized_last_in_chunk (s ci : Int) (files : List TorrentFile)
    (hs : 0 < s) (hsz : ∀ f ∈ files, 0 ≤ f.Size) :
    ∃ g : ScanStateG,
      scanFilesG false s ci files initStateG = .ok g ∧
      planChunks false s ci files = .ok (finishScan g.erase) ∧
      ∀ r ∈ g.runs, ∀ f ∈ r, s < f.Size →
        r.getLast? = some f ∧ s < sizeSum r := by
  obtain ⟨st0, h0⟩ := @scanFiles_ok_of_no_oversize false s ci files
    (by simp) initState
  obtain ⟨g, hg, hge⟩ := scanFilesG_ok_of_scanFiles h0
  obtain ⟨o1, o2, o3⟩ :=
    scanFilesG_oinv hs files hsz initStateG g GInv_init (OInv_init s) hg
  obtain ⟨ht1, -, -⟩ := scanFilesG_trace files initStateG g hg
  have hflat : g.runs.flatten = files := by
    unfold ScanStateG.runs
    have hsplit : (g.closedRuns ++ [g.currentRun]).flatten =
        g.closedRuns.flatten ++ g.currentRun := by simp
    rw [hsplit, ht1]
    simp [initStateG]
  refine ⟨g, hg, ?_, ?_⟩
  · rw [planChunks_ok_iff]
    exact ⟨st0, h0, by rw [hge]⟩
  · intro r hr f hf hbig
    have hlast : r.getLast? = some f := by
      unfold ScanStateG.runs at hr
      rcases List.mem_append.mp hr with hr2 | hr2
      · exact o3 r hr2 f hf hbig
      · simp at hr2; subst hr2; exact o2 f hf hbig
    refine ⟨hlast, ?_⟩
    have hrs : ∀ f2 ∈ r, 0 ≤ f2.Size := by
      intro f2 hf2
      exact hsz f2 (hflat ▸ List.mem_flatten.mpr ⟨r, hr, hf2⟩)
    have hle := le_sizeSum_of_mem hrs hf
    omega

/-- Witness: the amended oversized-file property on `[a(100), b(600)]`
with chunk size 500. -/
theorem nonstrict_oversized_last_in_chunk_witness :
    ∃ g : ScanStateG,
      scanFilesG false 500 0 [⟨0, "a", 100⟩, ⟨1, "b", 600⟩] initStateG = .ok g ∧
      planChunks false 500 0 [⟨0, "a", 100⟩, ⟨1, "b", 600⟩] =
        .ok (finishScan g.erase) ∧
      ∀ r ∈ g.runs, ∀ f ∈ r, (500 : Int) < f.Size →
        r.getLast? = some f ∧ (500 : Int) < sizeSum r :=
  nonstrict_oversized_last_in_chunk 500 0 [⟨0, "a", 100⟩, ⟨1, "b", 600⟩]
    (by decide) (by decide)

/-- Counterexample to C5 as stated: strict mode, chunk size 5, files
`[a(5), b(0)]`, every file size ≤ 5.  When `b` (size 0) is processed
the accumulated size is 5, and adding `b` would NOT make it exceed the
chunk size (5 + 0 > 5 is false), yet the code closes the open chunk
(line 116 also closes on accumulated ≥ chunkSize), producing the two
chunks `[(0,1,5), (1,1,0)]` instead of the single chunk the claimed
close rule predicts. -/
theorem strict_close_iff_counterexample :
    planChunks true 5 0 [⟨0, "a", 5⟩, ⟨1, "b", 0⟩] =
      .ok ⟨[⟨0, 1, 5⟩, ⟨1, 1, 0⟩], 1, 0, 1, [0], [1], 5⟩ ∧
    closeCond true 5 5 0 = true ∧
    ¬((5 : Int) + 0 > 5) ∧
    (0 : Int) ≤ 5 ∧ (5 : Int) ≤ 5 :=
  ⟨by rfl, by decide, by decide, by decide, by decide⟩

/-- C5 (amended): in strict mode, for a file of POSITIVE size the close
decision is exactly "adding this file would make the open chunk's
accumulated size exceed chunkSize": a successful strict step closes the
open chunk (records one more chunk) if and only if accumulated + size >
chunkSize.  For a zero-size file the code can additionally close when
the accumulated size already equals the chunk size, as the
counterexample shows. -/
theorem strict_close_iff_when_positive (s ci : Int) (st st2 : ScanState)
    (file : TorrentFile) (hz : 0 < file.Size)
    (h : scanStep true s ci st file = .ok st2) :
    st2.chunks.length = st.chunks.length + 1 ↔
      s < st.currentChunkSize + file.Size := by
  obtain ⟨hc1, hc2⟩ := scanStep_chunks_cs h
  by_cases hcl : closeCond true s st.currentChunkSize file.Size
  · obtain ⟨hl, -⟩ := hc1 hcl
    rw [closeCond_true_iff] at hcl
    constructor
    · intro _
      rcases hcl with h2 | ⟨-, h2⟩ <;> omega
    · intro _
      exact hl
  · obtain ⟨hl, -⟩ := hc2 (by simpa using hcl)
    have hno : ¬(s < st.currentChunkSize + file.Size) := by
      intro hbig
      exact hcl ((closeCond_true_iff _ _ _ _).mpr (.inr ⟨rfl, hbig⟩))
    constructor
    · intro hlen
      rw [hl] at hlen
      omega
    · intro hbig
      exact absurd hbig hno

/-- Witness: a strict step at accumulated size 3 adding a file of size
4 with chunk size 5 closes the open chunk, and indeed 3 + 4 > 5. -/
theorem strict_close_iff_when_positive_witness :
    (ScanState.mk [⟨0, 1, 3⟩] 1 4 1 [0] [1] 7).chunks.length =
      (ScanState.mk [] 0 3 1 [0] [] 3).chunks.length + 1 ↔
      (5 : Int) < 3 + 4 :=
  strict_close_iff_when_positive 5 0 (ScanState.mk [] 0 3 1 [0] [] 3)
    (ScanState.mk [⟨0, 1, 3⟩] 1 4 1 [0] [1] 7) ⟨1, "b", 4⟩ (by decide) (by rfl)

/-- C6: for every partitioned non-empty file list and chunkIndex ≥ 0, a
file's client index goes to the download list iff the open chunk's
index at the moment the file is added (recorded in the ghost
`assigned` field, whose projection is exactly the input list) equals
`chunkIndex`, and to the no-download list otherwise; the two lists
together are a permutation of the input file indexes (each exactly
once), and they are disjoint whenever the input indexes are duplicate
free. -/
theorem classification_by_open_chunk_index (strict : Bool) (s ci : Int)
    (files : List TorrentFile) (hne : files ≠ []) (hci : 0 ≤ ci)
    (g : ScanStateG) (h : scanFilesG strict s ci files initStateG = .ok g) :
    scanFiles strict s ci files initState = .ok g.erase ∧
    g.assigned.map (fun p => p.1) = files ∧
    g.downloadFileIndexes =
      (g.assigned.filter (fun p => p.2 == ci)).map (fun p => p.1.Index) ∧
    g.noDownloadFileIndexes =
      (g.assigned.filter (fun p => !(p.2 == ci))).map (fun p => p.1.Index) ∧
    (g.downloadFileIndexes ++ g.noDownloadFileIndexes).Perm
      (files.map TorrentFile.Index) ∧
    ((files.map TorrentFile.Index).Nodup →
      g.downloadFileIndexes.Disjoint g.noDownloadFileIndexes) := by
  have herase : scanFiles strict s ci files initState = .ok g.erase := by
    have he := scanFilesG_erase strict s ci files initStateG
    rw [h] at he
    simp [Except.map] at he
    exact he.symm
  obtain ⟨hd1, hd2⟩ := scanFilesG_dinv files initStateG g (DInv_init ci) h
  obtain ⟨-, ht2, -⟩ := scanFilesG_trace files initStateG g h
  have hmap : g.assigned.map (fun p => p.1) = files := by
    simpa [initStateG] using ht2
  have hperm : (g.downloadFileIndexes ++ g.noDownloadFileIndexes).Perm
      (files.map TorrentFile.Index) := by
    rw [hd1, hd2, ← List.map_append]
    have hp : (g.assigned.filter (fun p => p.2 == ci) ++
        g.assigned.filter (fun p => !(p.2 == ci))).Perm g.assigned :=
      List.filter_append_perm _ _
    have hmp := hp.map (fun p => p.1.Index)
    have heq : g.assigned.map (fun p : TorrentFile × Int => p.1.Index) =
        files.map TorrentFile.Index := by
      rw [← hmap, List.map_map]
      rfl
    rw [heq] at hmp
    exact hmp
  refine ⟨herase, hmap, hd1, hd2, hperm, ?_⟩
  intro hnodup
  have hnd : (g.downloadFileIndexes ++ g.noDownloadFileIndexes).Nodup :=
    (hperm.nodup_iff).mpr hnodup
  exact (List.nodup_append.mp hnd).2.2

/-- Witness: the classification property on `[a(3), b(4)]`, chunk size
5, chunk index 0: both files land in chunk 0, so both indexes are in
the download list and the no-download list is empty. -/
theorem classification_by_open_chunk_index_witness :
    scanFiles false 5 0 [⟨0, "a", 3⟩, ⟨1, "b", 4⟩] initState =
      .ok (ScanStateG.mk [] 0 7 2 [0, 1] [] 7 []
        [⟨0, "a", 3⟩, ⟨1, "b", 4⟩]
        [(⟨0, "a", 3⟩, 0), (⟨1, "b", 4⟩, 0)]).erase ∧
    (ScanStateG.mk [] 0 7 2 [0, 1] [] 7 [] [⟨0, "a", 3⟩, ⟨1, "b", 4⟩]
        [(⟨0, "a", 3⟩, 0), (⟨1, "b", 4⟩, 0)]).assigned.map (fun p => p.1) =
      [⟨0, "a", 3⟩, ⟨1, "b", 4⟩] ∧
    (ScanStateG.mk [] 0 7 2 [0, 1] [] 7 [] [⟨0, "a", 3⟩, ⟨1, "b", 4⟩]
        [(⟨0, "a", 3⟩, 0), (⟨1, "b", 4⟩, 0)]).downloadFileIndexes =
      ((ScanStateG.mk [] 0 7 2 [0, 1] [] 7 [] [⟨0, "a", 3⟩, ⟨1, "b", 4⟩]
        [(⟨0, "a", 3⟩, 0), (⟨1, "b", 4⟩, 0)]).assigned.filter
          (fun p => p.2 == 0)).map (fun p => p.1.Index) ∧
    (ScanStateG.mk [] 0 7 2 [0, 1] [] 7 [] [⟨0, "a", 3⟩, ⟨1, "b", 4⟩]
        [(⟨0, "a", 3⟩, 0), (⟨1, "b", 4⟩, 0)]).noDownloadFileIndexes =
      ((ScanStateG.mk [] 0 7 2 [0, 1] [] 7 [] [⟨0, "a", 3⟩, ⟨1, "b", 4⟩]
        [(⟨0, "a", 3⟩, 0), (⟨1, "b", 4⟩, 0)]).assigned.filter
          (fun p => !(p.2 == 0))).map (fun p => p.1.Index) ∧
    ((ScanStateG.mk [] 0 7 2 [0, 1] [] 7 [] [⟨0, "a", 3⟩, ⟨1, "b", 4⟩]
        [(⟨0, "a", 3⟩, 0), (⟨1, "b", 4⟩, 0)]).downloadFileIndexes ++
      (ScanStateG.mk [] 0 7 2 [0, 1] [] 7 [] [⟨0, "a", 3⟩, ⟨1, "b", 4⟩]
        [(⟨0, "a", 3⟩, 0), (⟨1, "b", 4⟩, 0)]).noDownloadFileIndexes).Perm
      (([⟨0, "a", 3⟩, ⟨1, "b", 4⟩] : List TorrentFile).map TorrentFile.Index) ∧
    ((([⟨0, "a", 3⟩, ⟨1, "b", 4⟩] : List TorrentFile).map TorrentFile.Index).Nodup →
      (ScanStateG.mk [] 0 7 2 [0, 1] [] 7 [] [⟨0, "a", 3⟩, ⟨1, "b", 4⟩]
        [(⟨0, "a", 3⟩, 0), (⟨1, "b", 4⟩, 0)]).downloadFileIndexes.Disjoint
        (ScanStateG.mk [] 0 7 2 [0, 1] [] 7 [] [⟨0, "a", 3⟩, ⟨1, "b", 4⟩]
          [(⟨0, "a", 3⟩, 0), (⟨1, "b", 4⟩, 0)]).noDownloadFileIndexes) :=
  classification_by_open_chunk_index false 5 0 [⟨0, "a", 3⟩, ⟨1, "b", 4⟩]
    (by decide) (by decide)
    (ScanStateG.mk [] 0 7 2 [0, 1] [] 7 [] [⟨0, "a", 3⟩, ⟨1, "b", 4⟩]
      [(⟨0, "a", 3⟩, 0), (⟨1, "b", 4⟩, 0)]) (by rfl)

/-- C7: a negative `chunkIndex` is always a validation failure detected
before partitioning — the command returns the invalid-chunk-index
outcome with no mutation calls for EVERY file list, even one that would
make the strict scan fail.  A `chunkIndex` at or beyond the produced
chunk count is detected only after the full partition is computed: a
partition failure takes precedence over it, and when the partition
succeeds (in non-report mode) the command aborts with the
out-of-range outcome and no mutation calls. -/
theorem chunk_index_validation (s ci : Int) (sa strict oo : Bool)
    (files : List TorrentFile) (hs : 0 < s) :
    (ci < 0 → partialdownload s ci sa strict oo files =
      ⟨1, [], none, some (.invalidChunkIndex ci), none⟩) ∧
    (0 ≤ ci → ∀ e,
      scanFiles strict s ci (orderedFiles oo files) initState = .error e →
      partialdownload s ci sa strict oo files =
        ⟨1, [], none, some (.fileTooLarge e.path e.size), none⟩) ∧
    (0 ≤ ci → ∀ st0,
      scanFiles strict s ci (orderedFiles oo files) initState = .ok st0 →
      ((finishScan st0).chunks.length : Int) ≤ ci →
      partialdownload s ci false strict oo files =
        ⟨1, [], none,
          some (.chunkIndexOutOfRange ci ((finishScan st0).chunks.length : Int)),
          none⟩) := by
  refine ⟨?_, ?_, ?_⟩
  · intro hci
    unfold partialdownload
    rw [if_neg (by omega), if_pos hci]
  · intro hci e he
    unfold partialdownload
    rw [if_neg (by omega), if_neg (by omega)]
    simp only [he]
  · intro hci st0 h0 hlen
    unfold partialdownload
    rw [if_neg (by omega), if_neg (by omega)]
    simp only [h0, Bool.false_eq_true, if_false, if_pos hlen]

/-- Witness: chunk-index validation at chunk size 5, chunk index 7, on
the one-file list `[a(3)]` (one produced chunk, so 7 is out of range
post-partition). -/
theorem chunk_index_validation_witness :
    ((7 : Int) < 0 → partialdownload 5 7 false false true [⟨0, "a", 3⟩] =
      ⟨1, [], none, some (.invalidChunkIndex 7), none⟩) ∧
    ((0 : Int) ≤ 7 → ∀ e,
      scanFiles false 5 7 (orderedFiles true [⟨0, "a", 3⟩]) initState = .error e →
      partialdownload 5 7 false false true [⟨0, "a", 3⟩] =
        ⟨1, [], none, some (.fileTooLarge e.path e.size), none⟩) ∧
    ((0 : Int) ≤ 7 → ∀ st0,
      scanFiles false 5 7 (orderedFiles true [⟨0, "a", 3⟩]) initState = .ok st0 →
      ((finishScan st0).chunks.length : Int) ≤ 7 →
      partialdownload 5 7 false false true [⟨0, "a", 3⟩] =
        ⟨1, [], none,
          some (.chunkIndexOutOfRange 7 ((finishScan st0).chunks.length : Int)),
          none⟩) :=
  chunk_index_validation 5 7 false false true [⟨0, "a", 3⟩] (by decide)

/-- C8: in show-all (report) mode, whenever the chunk-size and
chunk-index ≥ 0 checks pass and the scan does not hit the strict-mode
oversized-file failure, the command prints the full chunk table, issues
no `SetFilePriority` call, reports no error, exits zero — and never
validates `chunkIndex` against the produced chunk count (no upper bound
on `ci` is required). -/
theorem show_all_reports_only (s ci : Int) (strict oo : Bool)
    (files : List TorrentFile) (hs : 0 < s) (hci : 0 ≤ ci) (st0 : ScanState)
    (h : scanFiles strict s ci (orderedFiles oo files) initState = .ok st0) :
    partialdownload s ci true strict oo files =
      ⟨0, [], some (finishScan st0).chunks, none, none⟩ := by
  unfold partialdownload
  rw [if_neg (by omega), if_neg (by omega)]
  simp [h]

/-- Witness: show-all mode with the far-out-of-range chunk index 99 on
the one-chunk list `[a(3)]` still succeeds with exit 0 and no calls. -/
theorem show_all_reports_only_witness :
    partialdownload 5 99 true false true [⟨0, "a", 3⟩] =
      ⟨0, [], some (finishScan (ScanState.mk [] 0 3 1 [] [0] 3)).chunks,
        none, none⟩ :=
  show_all_reports_only 5 99 false true [⟨0, "a", 3⟩] (by decide) (by decide)
    (ScanState.mk [] 0 3 1 [] [0] 3) (by rfl)

/-- C10: on an empty file list with a valid chunk size the command does
not fail fast: the pass produces the single chunk (0, 0, 0), chunk
index 0 passes the post-partition validation, and in non-report mode
both priority-mutation calls are issued with empty index lists, the
final summary selecting that empty chunk with exit code 0. -/
theorem empty_list_one_empty_chunk (s : Int) (strict oo : Bool) (hs : 0 < s) :
    partialdownload s 0 false strict oo [] =
      ⟨0, [([], 1), ([], 0)], none, none, some ⟨0, 0, 0⟩⟩ := by
  unfold partialdownload
  rw [if_neg (by omega), if_neg (by omega)]
  have hord : orderedFiles oo [] = [] := by cases oo <;> rfl
  rw [hord]
  simp [scanFiles, finishScan, initState]

/-- Witness: the empty-list behaviour evaluated at chunk size 5. -/
theorem empty_list_one_empty_chunk_witness :
    partialdownload 5 0 false false false [] =
      ⟨0, [([], 1), ([], 0)], none, none, some ⟨0, 0, 0⟩⟩ :=
  empty_list_one_empty_chunk 5 false false (by decide)

/-- C9: for a fixed ordered file list (non-negative sizes) and a fixed
mode, the produced chunk count is monotonically non-decreasing as the
chunk size decreases: if 0 < s1 ≤ s2 and the partitioning succeeds for
both chunk sizes, the chunk count at s1 is at least the chunk count at
s2. -/
theorem chunk_count_antitone_in_chunk_size (strict : Bool) (ci : Int)
    (files : List TorrentFile) (hsz : ∀ f ∈ files, 0 ≤ f.Size)
    (s1 s2 : Int) (hs1 : 0 < s1) (h12 : s1 ≤ s2)
    (st1 st2 : ScanState)
    (h1 : planChunks strict s1 ci files = .ok st1)
    (h2 : planChunks strict s2 ci files = .ok st2) :
    st2.chunks.length ≤ st1.chunks.length := by
  obtain ⟨st01, h01, rfl⟩ := planChunks_ok_iff.mp h1
  obtain ⟨st02, h02, rfl⟩ := planChunks_ok_iff.mp h2
  have hl1 := scanFiles_chunks_length files initState st01 h01
  have hl2 := scanFiles_chunks_length files initState st02 h02
  have hmono := @closesCnt_anti_s strict s1 s2 h12 files hsz 0 0 le_rfl le_rfl
  have hf1 : (finishScan st01).chunks.length = st01.chunks.length + 1 := by
    simp [finishScan]
  have hf2 : (finishScan st02).chunks.length = st02.chunks.length + 1 := by
    simp [finishScan]
  simp [initState] at hl1 hl2
  omega

/-- Witness: chunk-size 3 gives two chunks and chunk-size 5 one chunk
on `[a(3), b(4)]`. -/
theorem chunk_count_antitone_in_chunk_size_witness :
    (ScanState.mk [⟨0, 2, 7⟩] 0 7 2 [0, 1] [] 7).chunks.length ≤
      (ScanState.mk [⟨0, 1, 3⟩, ⟨1, 1, 4⟩] 1 4 1 [0] [1] 7).chunks.length :=
  chunk_count_antitone_in_chunk_size false 0 [⟨0, "a", 3⟩, ⟨1, "b", 4⟩]
    (by decide) 3 5 (by decide) (by decide)
    (ScanState.mk [⟨0, 1, 3⟩, ⟨1, 1, 4⟩] 1 4 1 [0] [1] 7)
    (ScanState.mk [⟨0, 2, 7⟩] 0 7 2 [0, 1] [] 7) (by rfl) (by rfl)
